import Mathlib

/-!
Shallow embedding of the dense polynomial engine of the `vectra` crate
(`src/polynomial/mod.rs`), together with proofs of the specification
claims about it.

The Rust type `Polynomial<T>` stores a `degree : usize` and a
`coefficients : Vec<T>`; the intended invariant is
`coefficients.len() == degree + 1`.  We embed it as a structure `PolyV T`
over a coefficient type `T`.  Rust's `T::zero()` / `T::default()` (both
the additive identity for the numeric types the crate targets) become
`(0 : T)` through a `Zero` instance.  Fallible vector indexing becomes
`List.getElem?`, so code that would panic out of bounds instead yields
`none`; all claims are stated for polynomials satisfying the length
invariant, where the two semantics agree.
-/

/-- Embedding of `Polynomial<T>`: a declared degree and the coefficient
sequence, constant term first. -/
structure PolyV (T : Type) where
  degree : Nat
  coefficients : List T
deriving Repr, DecidableEq

/-- `Polynomial::default()`: degree 0 and `vec![T::zero(); 1]`. -/
def PolyV.defaultP (T : Type) [Zero T] : PolyV T :=
  { degree := 0, coefficients := List.replicate 1 0 }

/-- `Polynomial::new()`: delegates to `default`. -/
def PolyV.new (T : Type) [Zero T] : PolyV T :=
  PolyV.defaultP T

/-- `Polynomial::from_coefficients`: empty input yields `new`; otherwise
degree is `len - 1` and the vector is stored as given. -/
def PolyV.from_coefficients {T : Type} [Zero T] (coefficients : List T) : PolyV T :=
  if coefficients.isEmpty then PolyV.new T
  else { degree := coefficients.length - 1, coefficients := coefficients }

/-- `Polynomial::get_coefficient`: `None` when the requested degree exceeds
the stored degree, otherwise the stored entry.  The Rust body indexes the
vector (`self.coefficients[degree]`), which is in bounds whenever the
length invariant holds; we use `getElem?` so the function stays total. -/
def PolyV.get_coefficient {T : Type} (p : PolyV T) (degree : Nat) : Option T :=
  if degree > p.degree then none
  else p.coefficients[degree]?

/-- `Vec::resize(new_len, value)`: truncate when shrinking, pad with
`value` when growing. -/
def listResize {T : Type} (l : List T) (newLen : Nat) (v : T) : List T :=
  if newLen ≤ l.length then l.take newLen
  else l ++ List.replicate (newLen - l.length) v

/-- `Polynomial::set_degree`: grow-only; raising the degree resizes the
coefficient vector to `degree + 1` padding with zero, lowering is a no-op. -/
def PolyV.set_degree {T : Type} [Zero T] (p : PolyV T) (degree : Nat) : PolyV T :=
  if degree > p.degree then
    { degree := degree, coefficients := listResize p.coefficients (degree + 1) 0 }
  else p

/-- `Polynomial::set_coefficient`: ensure the degree is at least `degree`,
then overwrite the slot.  `List.set` models the in-bounds vector store. -/
def PolyV.set_coefficient {T : Type} [Zero T] (p : PolyV T) (degree : Nat) (c : T) : PolyV T :=
  let p1 := p.set_degree degree
  { degree := p1.degree, coefficients := p1.coefficients.set degree c }

/-- `opt.unwrap_or_default()` on an `Option<T>` coefficient lookup: the
numeric types the crate targets all have `default() == zero()`. -/
def coeffD {T : Type} [Zero T] (p : PolyV T) (i : Nat) : T :=
  (p.get_coefficient i).getD 0

/-- `impl Add for Polynomial<T>`: start from `new`, raise the degree to the
max of the operands, then for `i in 0..=result.degree` store the sum of the
operand coefficients at `i` (absent ones defaulting to zero). -/
def PolyV.add {T : Type} [Zero T] [Add T] (p other : PolyV T) : PolyV T :=
  let result := (PolyV.new T).set_degree (max p.degree other.degree)
  (List.range (result.degree + 1)).foldl
    (fun r i => r.set_coefficient i (coeffD p i + coeffD other i)) result

/-- `impl Sub for Polynomial<T>`: same loop as addition with `-`. -/
def PolyV.sub {T : Type} [Zero T] [Sub T] (p other : PolyV T) : PolyV T :=
  let result := (PolyV.new T).set_degree (max p.degree other.degree)
  (List.range (result.degree + 1)).foldl
    (fun r i => r.set_coefficient i (coeffD p i - coeffD other i)) result

/-- `impl Mul for Polynomial<T>`: start from `new` with degree the sum of
the operand degrees; for `i in 0..=self.degree`, `j in 0..=other.degree`
accumulate `self[i] * other[j]` into slot `i + j`. -/
def PolyV.mul {T : Type} [Zero T] [Add T] [Mul T] (p other : PolyV T) : PolyV T :=
  let result := (PolyV.new T).set_degree (p.degree + other.degree)
  (List.range (p.degree + 1)).foldl
    (fun r i =>
      (List.range (other.degree + 1)).foldl
        (fun r2 j =>
          r2.set_coefficient (i + j) (coeffD r2 (i + j) + coeffD p i * coeffD other j))
        r)
    result

/-- The representation invariant documented for `Polynomial<T>`:
`coefficients.len() == degree + 1`. -/
def PolyV.Inv {T : Type} (p : PolyV T) : Prop :=
  p.coefficients.length = p.degree + 1

instance {T : Type} (p : PolyV T) : Decidable p.Inv := by
  unfold PolyV.Inv; infer_instance

/-- The convolution double sum described by the specification for
multiplication: accumulate `p[i] * q[j]` into exponent `i + j`, i.e. the
coefficient at `k` is the sum of `p[i] * q[j]` over all pairs with
`i + j = k`, `i` ranging over `0..=p.degree` and `j` over `0..=q.degree`. -/
def convSum {T : Type} [AddCommMonoid T] [Mul T] (p q : PolyV T) (k : Nat) : T :=
  ∑ i ∈ Finset.range (p.degree + 1), ∑ j ∈ Finset.range (q.degree + 1),
    if i + j = k then coeffD p i * coeffD q j else 0

/-- Bridge used only in proofs: the Mathlib polynomial carried by an
embedded polynomial's coefficient vector. -/
noncomputable def toMathlibPoly {T : Type} [Semiring T] (p : PolyV T) : Polynomial T :=
  ∑ i ∈ Finset.range (p.degree + 1), Polynomial.C (coeffD p i) * Polynomial.X ^ i

/-! ## The two display renderers -/

/-- Concatenation of a list of strings, in order, with no separator. -/
def strJoin : List String → String
  | [] => ""
  | s :: rest => s ++ strJoin rest

/-- Loop body of `impl Display for Polynomial<T>` (real-coefficient
renderer): skip a zero coefficient; otherwise negate a negative
coefficient and remember its sign token, omit the leading `"+ "` on the
first emitted term (but keep `"- "`), prepend a space and the sign token
on later terms, and elide the variable power for exponents 0 and 1.
`toStr` stands for the coefficient type's `Display` implementation; the
accumulator carries `(formatted_string, is_first_term)`. -/
def fmtStep {T : Type} [Zero T] [Neg T] [LT T] [DecidableEq T]
    [∀ a b : T, Decidable (a < b)] (toStr : T → String)
    (acc : String × Bool) (dc : Nat × T) : String × Bool :=
  if dc.2 ≠ 0 then
    let c := if dc.2 < 0 then -dc.2 else dc.2
    let sign := if dc.2 < 0 then "- " else "+ "
    let acc1 :=
      if acc.2 then (if dc.2 < 0 then acc.1 ++ sign else acc.1)
      else (acc.1 ++ " ") ++ sign
    let term :=
      match dc.1 with
      | 0 => toStr c
      | 1 => toStr c ++ "x"
      | _ => toStr c ++ "x^" ++ toString dc.1
    (acc1 ++ term, false)
  else acc

/-- `impl Display for Polynomial<T>` (real-coefficient renderer): fold the
loop body over `coefficients.iter().enumerate().rev()` starting from the
empty string with `is_first_term = true`. -/
def PolyV.fmtDisplay {T : Type} [Zero T] [Neg T] [LT T] [DecidableEq T]
    [∀ a b : T, Decidable (a < b)] (toStr : T → String) (p : PolyV T) : String :=
  (p.coefficients.enum.reverse.foldl (fmtStep toStr) ("", true)).1

/-- The `num` crate's `Complex<T>` as consumed by the complex renderer:
real and imaginary parts. -/
structure NumComplexV (T : Type) where
  re : T
  im : T
deriving Repr, DecidableEq

/-- `Complex<T>` is `Zero` with both parts zero, as in the `num` crate. -/
instance {T : Type} [Zero T] : Zero (NumComplexV T) :=
  ⟨{ re := 0, im := 0 }⟩

/-- `Complex::norm_sqr` of the `num` crate: `re*re + im*im`. -/
def NumComplexV.norm_sqr {T : Type} [Add T] [Mul T] (z : NumComplexV T) : T :=
  z.re * z.re + z.im * z.im

/-- `Signed::abs` of the `num` crate: the absolute value. -/
def absV {T : Type} [Zero T] [Neg T] [LT T] [∀ a b : T, Decidable (a < b)]
    (x : T) : T :=
  if x < 0 then -x else x

/-- Loop body of `impl Display for Polynomial<NumComplex<T>>`: skip a term
whose squared norm is zero; otherwise print the real part when non-zero,
then the signed imaginary part (`+` separator only when the imaginary part
is positive and the real part non-zero, `-` whenever the imaginary part is
not positive, then `abs(im)` and `i`), wrapping the term as
`+ (<text>)x^<exponent> `. -/
def fmtComplexStep {T : Type} [Zero T] [Add T] [Mul T] [Neg T] [LT T]
    [DecidableEq T] [∀ a b : T, Decidable (a < b)] (toStr : T → String)
    (fs : String) (dc : Nat × NumComplexV T) : String :=
  if dc.2.norm_sqr ≠ 0 then
    let r1 := if dc.2.re ≠ 0 then toStr dc.2.re else ""
    let r2 :=
      if dc.2.im ≠ 0 then
        (if 0 < dc.2.im then (if dc.2.re ≠ 0 then r1 ++ "+" else r1) else r1 ++ "-")
          ++ toStr (absV dc.2.im) ++ "i"
      else r1
    fs ++ ("+ (" ++ r2 ++ ")x^" ++ toString dc.1 ++ " ")
  else fs

/-- `impl Display for Polynomial<NumComplex<T>>`: fold the loop body over
`coefficients.iter().enumerate().rev()` starting from the empty string. -/
def PolyV.fmtComplexDisplay {T : Type} [Zero T] [Add T] [Mul T] [Neg T] [LT T]
    [DecidableEq T] [∀ a b : T, Decidable (a < b)] (toStr : T → String)
    (p : PolyV (NumComplexV T)) : String :=
  p.coefficients.enum.reverse.foldl (fmtComplexStep toStr) ""

/-! ## Declarative renderings following the specification's wording
(used to state the two rendering claims as refinements) -/

/-- Modelled from the spec (§4.4): exponent 0 renders as the bare
magnitude, exponent 1 as `<magnitude>x`, exponent ≥ 2 as
`<magnitude>x^<exponent>`. -/
def specTermBody (d : Nat) (c : Int) : String :=
  match d with
  | 0 => toString c
  | 1 => toString c ++ "x"
  | _ => toString c ++ "x^" ++ toString d

/-- Modelled from the spec (§4.4): the first emitted term carries no
leading `"+ "` but keeps `"- "` for a negative coefficient, and displays
the negated magnitude. -/
def specFirstTerm (dc : Nat × Int) : String :=
  (if dc.2 < 0 then "- " else "") ++ specTermBody dc.1 (if dc.2 < 0 then -dc.2 else dc.2)

/-- Modelled from the spec (§4.4): every later term is preceded by a space
and its sign token. -/
def specLaterTerm (dc : Nat × Int) : String :=
  " " ++ (if dc.2 < 0 then "- " else "+ ") ++
    specTermBody dc.1 (if dc.2 < 0 then -dc.2 else dc.2)

/-- Modelled from the spec (§4.4): iterate exponents from highest to
lowest, drop zero coefficients, render the first surviving term specially
and append the remaining ones; the all-zero polynomial gives `""`. -/
def specDisplay (p : PolyV Int) : String :=
  match p.coefficients.enum.reverse.filter (fun dc => decide (dc.2 ≠ 0)) with
  | [] => ""
  | t :: rest => specFirstTerm t ++ strJoin (rest.map specLaterTerm)

/-- Modelled from the spec (§4.5): one complex term, wrapped as
`+ (<text>)x^<exponent> `, where `<text>` is the real part when non-zero,
then a `+` only if the imaginary part is positive and the real part
non-zero, a `-` whenever the imaginary part is negative, then the
absolute value of the imaginary part and `i`. -/
def specComplexTerm (dc : Nat × NumComplexV Int) : String :=
  "+ (" ++
    ((if dc.2.re ≠ 0 then toString dc.2.re else "") ++
      (if dc.2.im ≠ 0 then
        (if 0 < dc.2.im ∧ dc.2.re ≠ 0 then "+" else if dc.2.im < 0 then "-" else "")
          ++ toString |dc.2.im| ++ "i"
      else ""))
    ++ ")x^" ++ toString dc.1 ++ " "

/-- Modelled from the spec (§4.5): iterate exponents from highest to
lowest, keep exactly the terms of non-zero squared norm, and concatenate
their renderings (every term keeps its leading `"+ "` and trailing
space). -/
def specComplexDisplay (p : PolyV (NumComplexV Int)) : String :=
  strJoin ((p.coefficients.enum.reverse.filter
    (fun dc => decide (dc.2.norm_sqr ≠ 0))).map specComplexTerm)

/-! ## Basic facts about the constructors and mutators -/

theorem PolyV.new_degree (T : Type) [Zero T] : (PolyV.new T).degree = 0 := rfl

theorem PolyV.new_coefficients (T : Type) [Zero T] :
    (PolyV.new T).coefficients = [0] := rfl

/-- Raising the degree of the fresh zero polynomial produces `d` and a
zero-filled vector of length `d + 1`. -/
theorem PolyV.new_set_degree (T : Type) [Zero T] (d : Nat) :
    (PolyV.new T).set_degree d =
      { degree := d, coefficients := List.replicate (d + 1) (0 : T) } := by
  unfold PolyV.set_degree PolyV.new PolyV.defaultP listResize
  rcases Nat.eq_zero_or_pos d with h | h
  · subst h; rfl
  · simp only [List.length_replicate]
    rw [if_pos h]
    have h2 : ¬ (d + 1 ≤ 1) := by omega
    rw [if_neg h2]
    simp only [PolyV.mk.injEq, true_and]
    rw [show List.replicate 1 (0 : T) = [0] from rfl]
    rw [List.singleton_append]
    rw [show d + 1 - 1 = d by omega]
    rw [← List.replicate_succ]

/-- Writing at a slot `i ≤ n` leaves the degree alone and is a plain store. -/
theorem PolyV.set_coefficient_le {T : Type} [Zero T] (n i : Nat) (l : List T) (c : T)
    (hi : i ≤ n) :
    PolyV.set_coefficient { degree := n, coefficients := l } i c =
      { degree := n, coefficients := l.set i c } := by
  unfold PolyV.set_coefficient PolyV.set_degree
  have : ¬ i > n := by omega
  rw [if_neg this]

/-- The write loop shared by `add` and `sub`: folding
`set_coefficient i (f i)` over `0..m` on a vector of length `n + 1`
replaces the first `m` entries by `f` and keeps the tail. -/
theorem PolyV.foldl_write {T : Type} [Zero T] (f : Nat → T) (n : Nat) :
    ∀ (m : Nat), m ≤ n + 1 → ∀ (l : List T), l.length = n + 1 →
      (List.range m).foldl
          (fun r i => PolyV.set_coefficient r i (f i))
          { degree := n, coefficients := l } =
        { degree := n, coefficients := (List.range m).map f ++ l.drop m } := by
  intro m
  induction m with
  | zero => intro _ l _; simp
  | succ m ih =>
    intro hm l hl
    rw [List.range_succ, List.foldl_append, ih (by omega) l hl]
    simp only [List.foldl_cons, List.foldl_nil]
    rw [PolyV.set_coefficient_le _ _ _ _ (by omega)]
    simp only [PolyV.mk.injEq, true_and]
    have hlm : ((List.range m).map f).length = m := by
      rw [List.length_map, List.length_range]
    rw [List.set_append]
    rw [if_neg (by omega)]
    rw [hlm, Nat.sub_self]
    have hdrop : l.drop m = l[m] :: l.drop (m + 1) := by
      exact List.drop_eq_getElem_cons (by omega)
    rw [hdrop, List.set_cons_zero, List.map_append]
    simp [List.append_assoc]

/-- Characterization of `add`: the result has degree `max` of the operand
degrees and coefficient `k` is the sum of the operand coefficients at `k`
(zero when absent). -/
theorem PolyV.add_eq {T : Type} [Zero T] [Add T] (p q : PolyV T) :
    p.add q =
      { degree := max p.degree q.degree,
        coefficients := (List.range (max p.degree q.degree + 1)).map
          (fun i => coeffD p i + coeffD q i) } := by
  unfold PolyV.add
  rw [PolyV.new_set_degree]
  simp only
  rw [PolyV.foldl_write _ _ _ (le_refl _) _ (by simp)]
  simp [List.drop_replicate]

/-- Characterization of `sub`, same shape as `add`. -/
theorem PolyV.sub_eq {T : Type} [Zero T] [Sub T] (p q : PolyV T) :
    p.sub q =
      { degree := max p.degree q.degree,
        coefficients := (List.range (max p.degree q.degree + 1)).map
          (fun i => coeffD p i - coeffD q i) } := by
  unfold PolyV.sub
  rw [PolyV.new_set_degree]
  simp only
  rw [PolyV.foldl_write _ _ _ (le_refl _) _ (by simp)]
  simp [List.drop_replicate]

/-! ## Coefficient lookup facts -/

/-- Lookup past the stored degree yields `none`, hence `coeffD` yields 0. -/
theorem coeffD_of_gt {T : Type} [Zero T] (p : PolyV T) (i : Nat) (h : p.degree < i) :
    coeffD p i = 0 := by
  unfold coeffD PolyV.get_coefficient
  rw [if_pos h]
  rfl

/-- Lookup within the stored degree reads the vector. -/
theorem coeffD_mk_le {T : Type} [Zero T] (n i : Nat) (l : List T) (hi : i ≤ n) :
    coeffD { degree := n, coefficients := l } i = l.getD i 0 := by
  unfold coeffD PolyV.get_coefficient
  have hd : ({ degree := n, coefficients := l } : PolyV T).degree = n := rfl
  have hc : ({ degree := n, coefficients := l } : PolyV T).coefficients = l := rfl
  rw [hd, hc, if_neg (by omega), List.getD_eq_getElem?_getD]

/-- Indexing a `map` over `range` below the bound. -/
theorem getD_map_range {T : Type} [Zero T] (F : Nat → T) (n k : Nat) (h : k < n) :
    (((List.range n).map F).getD k 0) = F k := by
  rw [List.getD_eq_getElem?_getD, List.getElem?_map, List.getElem?_range h]
  rfl

/-- A `map` over `range (n+1)` that just reads back a list of length `n+1`
reproduces the list. -/
theorem map_range_getD {T : Type} [Zero T] (l : List T) (n : Nat) (h : l.length = n + 1) :
    (List.range (n + 1)).map (fun k => l.getD k 0) = l := by
  apply List.ext_getElem?
  intro k
  rw [List.getElem?_map]
  by_cases hk : k < n + 1
  · rw [List.getElem?_range hk]
    simp only [Option.map_some']
    rw [List.getD_eq_getElem (l := l) 0 (by omega),
      List.getElem?_eq_getElem (by omega)]
  · rw [List.getElem?_eq_none (l := List.range (n + 1)) (by simpa using hk),
      List.getElem?_eq_none (by omega)]
    rfl

/-! ## The accumulation loop of `mul` -/

/-- The inner loop of `mul` for a fixed outer index `a`: folding
`set_coefficient (a+j) (current + g j)` over `j = 0..m` on a length-`n+1`
vector adds `g j` into slot `a + j` for each `j`. -/
theorem PolyV.foldl_accum {T : Type} [AddCommMonoid T] (g : Nat → T) (n a : Nat) :
    ∀ (m : Nat), a + m ≤ n + 1 → ∀ (l : List T), l.length = n + 1 →
      (List.range m).foldl
          (fun r2 j => PolyV.set_coefficient r2 (a + j) (coeffD r2 (a + j) + g j))
          { degree := n, coefficients := l } =
        { degree := n,
          coefficients := (List.range (n + 1)).map
            (fun k => l.getD k 0 +
              ∑ j ∈ Finset.range m, if a + j = k then g j else 0) } := by
  intro m
  induction m with
  | zero =>
    intro _ l hl
    simp only [List.range_zero, List.foldl_nil, Finset.range_zero, Finset.sum_empty,
      add_zero]
    rw [map_range_getD l n hl]
  | succ m ih =>
    intro hm l hl
    rw [List.range_succ, List.foldl_append, ih (by omega) l hl]
    simp only [List.foldl_cons, List.foldl_nil]
    rw [PolyV.set_coefficient_le _ _ _ _ (by omega)]
    have hLlen : ((List.range (n + 1)).map
        (fun k => l.getD k 0 + ∑ j ∈ Finset.range m, if a + j = k then g j else 0)).length
        = n + 1 := by
      rw [List.length_map, List.length_range]
    rw [coeffD_mk_le _ _ _ (by omega)]
    rw [getD_map_range _ _ _ (by omega)]
    simp only [PolyV.mk.injEq, true_and]
    apply List.ext_getElem?
    intro k
    rw [List.getElem?_set]
    by_cases hk : k < n + 1
    · by_cases hak : a + m = k
      · rw [if_pos hak, if_pos (by rw [hLlen]; omega)]
        rw [List.getElem?_map, List.getElem?_range hk]
        simp only [Option.map_some']
        congr 1
        subst hak
        have hnow : (∑ j ∈ Finset.range m, if a + j = a + m then g j else 0) = 0 := by
          apply Finset.sum_eq_zero
          intro j hj
          rw [if_neg (by simp at hj; omega)]
        rw [Finset.sum_range_succ, hnow, if_pos rfl, zero_add]
        rw [add_assoc, zero_add]
      · rw [if_neg hak, List.getElem?_map, List.getElem?_map, List.getElem?_range hk]
        simp only [Option.map_some']
        congr 1
        rw [Finset.sum_range_succ, if_neg hak, add_zero]
    · rw [if_neg (by omega)]
      rw [List.getElem?_eq_none (by rw [hLlen]; omega),
        List.getElem?_eq_none (by rw [List.length_map, List.length_range]; omega)]

/-- Characterization of `mul`: the result has degree the sum of the operand
degrees, and its coefficient vector is exactly the convolution double sum
of the specification at each exponent. -/
theorem PolyV.mul_eq {T : Type} [AddCommMonoid T] [Mul T] (p q : PolyV T) :
    p.mul q =
      { degree := p.degree + q.degree,
        coefficients :=
          (List.range (p.degree + q.degree + 1)).map (fun k => convSum p q k) } := by
  unfold PolyV.mul
  rw [PolyV.new_set_degree]
  simp only
  have haux : ∀ (b : Nat), b ≤ p.degree + 1 →
      (List.range b).foldl
          (fun r i =>
            (List.range (q.degree + 1)).foldl
              (fun r2 j =>
                PolyV.set_coefficient r2 (i + j) (coeffD r2 (i + j) + coeffD p i * coeffD q j))
              r)
          { degree := p.degree + q.degree,
            coefficients := List.replicate (p.degree + q.degree + 1) (0 : T) } =
        { degree := p.degree + q.degree,
          coefficients := (List.range (p.degree + q.degree + 1)).map
            (fun k => ∑ i ∈ Finset.range b, ∑ j ∈ Finset.range (q.degree + 1),
              if i + j = k then coeffD p i * coeffD q j else 0) } := by
    intro b
    induction b with
    | zero =>
      intro _
      simp only [List.range_zero, List.foldl_nil, Finset.range_zero, Finset.sum_empty]
      rw [List.map_const', List.length_range]
    | succ b ihb =>
      intro hb
      rw [List.range_succ (n := b), List.foldl_append, ihb (by omega)]
      simp only [List.foldl_cons, List.foldl_nil]
      rw [PolyV.foldl_accum (fun j => coeffD p b * coeffD q j)
        (p.degree + q.degree) b (q.degree + 1) (by omega) _
        (by rw [List.length_map, List.length_range])]
      simp only [PolyV.mk.injEq, true_and]
      apply List.map_congr_left
      intro k hk
      have hk2 : k < p.degree + q.degree + 1 := List.mem_range.mp hk
      rw [getD_map_range _ _ _ hk2]
      rw [Finset.sum_range_succ
        (f := fun i => ∑ j ∈ Finset.range (q.degree + 1),
          if i + j = k then coeffD p i * coeffD q j else 0)]
  exact haux (p.degree + 1) (le_refl _)

/-! ## Invariant preservation -/

theorem length_listResize {T : Type} (l : List T) (n : Nat) (v : T) :
    (listResize l n v).length = n := by
  unfold listResize
  split
  · rw [List.length_take]; omega
  · rw [List.length_append, List.length_replicate]; omega

theorem PolyV.inv_new (T : Type) [Zero T] : (PolyV.new T).Inv := rfl

theorem PolyV.inv_from_coefficients {T : Type} [Zero T] (cs : List T) :
    (PolyV.from_coefficients cs).Inv := by
  unfold PolyV.from_coefficients
  split
  · exact PolyV.inv_new T
  · unfold PolyV.Inv
    simp only
    rename_i hne
    have : cs.length ≠ 0 := by
      intro h0
      exact hne (List.isEmpty_iff_length_eq_zero.mpr h0)
    omega

theorem PolyV.inv_set_degree {T : Type} [Zero T] (p : PolyV T) (d : Nat)
    (hp : p.Inv) : (p.set_degree d).Inv := by
  unfold PolyV.set_degree
  split
  · unfold PolyV.Inv
    simp only
    rw [length_listResize]
  · exact hp

theorem PolyV.inv_set_coefficient {T : Type} [Zero T] (p : PolyV T) (d : Nat) (c : T)
    (hp : p.Inv) : (p.set_coefficient d c).Inv := by
  unfold PolyV.set_coefficient
  have h1 : (p.set_degree d).Inv := PolyV.inv_set_degree p d hp
  unfold PolyV.Inv at h1 ⊢
  simp only [List.length_set]
  exact h1

theorem PolyV.inv_add {T : Type} [Zero T] [Add T] (p q : PolyV T) : (p.add q).Inv := by
  rw [PolyV.add_eq]
  unfold PolyV.Inv
  simp only [List.length_map, List.length_range]

theorem PolyV.inv_sub {T : Type} [Zero T] [Sub T] (p q : PolyV T) : (p.sub q).Inv := by
  rw [PolyV.sub_eq]
  unfold PolyV.Inv
  simp only [List.length_map, List.length_range]

theorem PolyV.inv_mul {T : Type} [AddCommMonoid T] [Mul T] (p q : PolyV T) :
    (p.mul q).Inv := by
  rw [PolyV.mul_eq]
  unfold PolyV.Inv
  simp only [List.length_map, List.length_range]

/-! ## Coefficients of the operation results -/

theorem getElem?_map_range {T : Type} (F : Nat → T) (n k : Nat) (h : k < n) :
    ((List.range n).map F)[k]? = some (F k) := by
  rw [List.getElem?_map, List.getElem?_range h]
  rfl

/-- `coeffD` on the result of `add` is the pointwise sum, at every index. -/
theorem coeffD_add {T : Type} [AddZeroClass T] (p q : PolyV T) (i : Nat) :
    coeffD (p.add q) i = coeffD p i + coeffD q i := by
  rw [PolyV.add_eq]
  by_cases hi : i ≤ max p.degree q.degree
  · rw [coeffD_mk_le _ _ _ hi, getD_map_range _ _ _ (by omega)]
  · rw [coeffD_of_gt _ _ (by simp only; omega)]
    rw [coeffD_of_gt p i (by omega), coeffD_of_gt q i (by omega), add_zero]

/-- `coeffD` on the result of `mul` is the convolution sum, at every index. -/
theorem coeffD_mul {T : Type} [AddCommMonoid T] [Mul T] (p q : PolyV T) (k : Nat) :
    coeffD (p.mul q) k = convSum p q k := by
  rw [PolyV.mul_eq]
  by_cases hk : k ≤ p.degree + q.degree
  · rw [coeffD_mk_le _ _ _ hk, getD_map_range _ _ _ (by omega)]
  · rw [coeffD_of_gt _ _ (by simp only; omega)]
    unfold convSum
    symm
    apply Finset.sum_eq_zero
    intro i hi
    apply Finset.sum_eq_zero
    intro j hj
    rw [if_neg]
    simp only [Finset.mem_range] at hi hj
    omega

/-- The convolution double sum over the operand index boxes equals the sum
over the antidiagonal of `k` (entries beyond the stored degrees contribute
nothing). -/
theorem convSum_antidiagonal {T : Type} [NonUnitalNonAssocSemiring T]
    (p q : PolyV T) (k : Nat) :
    convSum p q k = ∑ x ∈ Finset.antidiagonal k, coeffD p x.1 * coeffD q x.2 := by
  unfold convSum
  rw [← Finset.sum_product']
  rw [← Finset.sum_filter]
  apply Finset.sum_subset
  · intro x hx
    rw [Finset.mem_filter] at hx
    rw [Finset.mem_antidiagonal]
    exact hx.2
  · intro x hx hnx
    rw [Finset.mem_antidiagonal] at hx
    rw [Finset.mem_filter, Finset.mem_product, Finset.mem_range, Finset.mem_range] at hnx
    push_neg at hnx
    by_cases h1 : x.1 < p.degree + 1
    · by_cases h2 : x.2 < q.degree + 1
      · exact absurd hx (hnx ⟨h1, h2⟩)
      · rw [coeffD_of_gt q x.2 (by omega), mul_zero]
    · rw [coeffD_of_gt p x.1 (by omega), zero_mul]

/-- The bridge preserves coefficients, at every index. -/
theorem toMathlibPoly_coeff {T : Type} [Semiring T] (p : PolyV T) (k : Nat) :
    (toMathlibPoly p).coeff k = coeffD p k := by
  unfold toMathlibPoly
  rw [Polynomial.finset_sum_coeff]
  have hterm : ∀ i ∈ Finset.range (p.degree + 1),
      (Polynomial.C (coeffD p i) * Polynomial.X ^ i).coeff k =
        if k = i then coeffD p i else 0 := by
    intro i _
    rw [Polynomial.coeff_C_mul, Polynomial.coeff_X_pow, mul_ite, mul_one, mul_zero]
  rw [Finset.sum_congr rfl hterm]
  rw [Finset.sum_ite_eq]
  split
  · rfl
  · rename_i hk
    rw [Finset.mem_range] at hk
    rw [coeffD_of_gt p k (by omega)]

/-- The bridge is multiplicative for the engine's `mul`. -/
theorem toMathlibPoly_mul {T : Type} [Semiring T] (p q : PolyV T) :
    toMathlibPoly (p.mul q) = toMathlibPoly p * toMathlibPoly q := by
  apply Polynomial.ext
  intro k
  rw [toMathlibPoly_coeff, Polynomial.coeff_mul, coeffD_mul, convSum_antidiagonal]
  apply Finset.sum_congr rfl
  intro x _
  rw [toMathlibPoly_coeff, toMathlibPoly_coeff]

theorem PolyV.add_degree {T : Type} [Zero T] [Add T] (p q : PolyV T) :
    (p.add q).degree = max p.degree q.degree := by
  rw [PolyV.add_eq]

theorem PolyV.sub_degree {T : Type} [Zero T] [Sub T] (p q : PolyV T) :
    (p.sub q).degree = max p.degree q.degree := by
  rw [PolyV.sub_eq]

theorem PolyV.mul_degree {T : Type} [AddCommMonoid T] [Mul T] (p q : PolyV T) :
    (p.mul q).degree = p.degree + q.degree := by
  rw [PolyV.mul_eq]

theorem coeffD_new {T : Type} [Zero T] (j : Nat) : coeffD (PolyV.new T) j = 0 := by
  rcases Nat.eq_zero_or_pos j with h | h
  · subst h; rfl
  · exact coeffD_of_gt _ _ (by rw [PolyV.new_degree]; omega)

/-- `convSum` is the coefficient of the product of the bridged Mathlib
polynomials. -/
theorem convSum_toM {T : Type} [Semiring T] (p q : PolyV T) (k : Nat) :
    convSum p q k = (toMathlibPoly p * toMathlibPoly q).coeff k := by
  rw [Polynomial.coeff_mul, convSum_antidiagonal]
  apply Finset.sum_congr rfl
  intro x _
  rw [toMathlibPoly_coeff, toMathlibPoly_coeff]

/-! ## Claims -/

/-- C1: every polynomial reachable through the public interface
(`new`/`default`, `from_coefficients`, `set_degree`, `set_coefficient` and
the three operators) satisfies `coefficients.len() == degree + 1`; every
mutation and operator result re-establishes the invariant. -/
theorem claim_C1 {T : Type} [AddCommMonoid T] [Sub T] [Mul T] (p q : PolyV T)
    (hp : p.Inv) (cs : List T) (d : Nat) (c : T) :
    (PolyV.new T).Inv ∧ (PolyV.defaultP T).Inv ∧
    (PolyV.from_coefficients cs).Inv ∧
    (p.set_degree d).Inv ∧ (p.set_coefficient d c).Inv ∧
    (p.add q).Inv ∧ (p.sub q).Inv ∧ (p.mul q).Inv :=
  ⟨PolyV.inv_new T, PolyV.inv_new T, PolyV.inv_from_coefficients cs,
    PolyV.inv_set_degree p d hp, PolyV.inv_set_coefficient p d c hp,
    PolyV.inv_add p q, PolyV.inv_sub p q, PolyV.inv_mul p q⟩

theorem claim_C1_witness :
    (PolyV.new Int).Inv ∧ (PolyV.defaultP Int).Inv ∧
    (PolyV.from_coefficients [(3 : Int), 4]).Inv ∧
    (PolyV.set_degree { degree := 1, coefficients := [(1 : Int), 2] } 5).Inv ∧
    (PolyV.set_coefficient { degree := 1, coefficients := [(1 : Int), 2] } 5 7).Inv ∧
    (PolyV.add { degree := 1, coefficients := [(1 : Int), 2] }
      { degree := 0, coefficients := [(5 : Int)] }).Inv ∧
    (PolyV.sub { degree := 1, coefficients := [(1 : Int), 2] }
      { degree := 0, coefficients := [(5 : Int)] }).Inv ∧
    (PolyV.mul { degree := 1, coefficients := [(1 : Int), 2] }
      { degree := 0, coefficients := [(5 : Int)] }).Inv :=
  claim_C1 { degree := 1, coefficients := [(1 : Int), 2] }
    { degree := 0, coefficients := [(5 : Int)] } (by decide) [(3 : Int), 4] 5 7

/-- C2 counterexample: `from_coefficients` applied to the non-empty
all-zero sequence `[0,0,0]` yields an all-zero polynomial whose degree is
2, not the canonical `degree == 0`, `coefficients == [zero]` form. -/
theorem claim_C2_counterexample :
    (∀ c ∈ (PolyV.from_coefficients [(0 : Int), 0, 0]).coefficients, c = 0) ∧
    ¬((PolyV.from_coefficients [(0 : Int), 0, 0]).degree = 0 ∧
      (PolyV.from_coefficients [(0 : Int), 0, 0]).coefficients = [(0 : Int)]) := by
  decide

/-- C2 amended: only `new`/`default` and `from_coefficients([])` produce the
canonical zero polynomial (`degree == 0`, `coefficients == [zero]`, degree
never negative); `from_coefficients` on a non-empty sequence — all-zero or
not — keeps the sequence and sets degree `len - 1`, so an all-zero
polynomial of higher declared degree is reachable. -/
theorem claim_C2_amended {T : Type} [Zero T] (cs : List T) :
    (PolyV.new T).degree = 0 ∧ (PolyV.new T).coefficients = [0] ∧
    (PolyV.defaultP T).degree = 0 ∧ (PolyV.defaultP T).coefficients = [0] ∧
    (PolyV.from_coefficients ([] : List T)).degree = 0 ∧
    (PolyV.from_coefficients ([] : List T)).coefficients = [0] ∧
    (cs ≠ [] → (PolyV.from_coefficients cs).degree = cs.length - 1 ∧
      (PolyV.from_coefficients cs).coefficients = cs) := by
  refine ⟨rfl, rfl, rfl, rfl, rfl, rfl, ?_⟩
  intro hne
  unfold PolyV.from_coefficients
  rw [if_neg (by simpa using hne)]
  exact ⟨rfl, rfl⟩

theorem claim_C2_amended_witness :
    (PolyV.new Int).degree = 0 ∧ (PolyV.new Int).coefficients = [0] ∧
    (PolyV.defaultP Int).degree = 0 ∧ (PolyV.defaultP Int).coefficients = [0] ∧
    (PolyV.from_coefficients ([] : List Int)).degree = 0 ∧
    (PolyV.from_coefficients ([] : List Int)).coefficients = [0] ∧
    ([(0 : Int), 0, 0] ≠ [] →
      (PolyV.from_coefficients [(0 : Int), 0, 0]).degree = 2 ∧
      (PolyV.from_coefficients [(0 : Int), 0, 0]).coefficients = [0, 0, 0]) :=
  claim_C2_amended [(0 : Int), 0, 0]

/-- C7: `from_coefficients` keeps a non-empty sequence as-is with degree
`len - 1`, and maps the empty sequence to the canonical zero polynomial
without failing. -/
theorem claim_C7 {T : Type} [Zero T] (s : List T) :
    (s ≠ [] → (PolyV.from_coefficients s).coefficients = s ∧
      (PolyV.from_coefficients s).degree = s.length - 1) ∧
    (s = [] → (PolyV.from_coefficients s).degree = 0 ∧
      (PolyV.from_coefficients s).coefficients = [0]) := by
  constructor
  · intro hne
    unfold PolyV.from_coefficients
    rw [if_neg (by simpa using hne)]
    exact ⟨rfl, rfl⟩
  · intro he
    subst he
    exact ⟨rfl, rfl⟩

theorem claim_C7_witness :
    (PolyV.from_coefficients [(5 : Int), 6]).coefficients = [5, 6] ∧
    (PolyV.from_coefficients [(5 : Int), 6]).degree = 1 ∧
    (PolyV.from_coefficients ([] : List Int)).degree = 0 ∧
    (PolyV.from_coefficients ([] : List Int)).coefficients = [0] := by
  refine ⟨?_, ?_, ?_, ?_⟩
  · exact ((claim_C7 [(5 : Int), 6]).1 (by decide)).1
  · exact ((claim_C7 [(5 : Int), 6]).1 (by decide)).2
  · exact ((claim_C7 ([] : List Int)).2 rfl).1
  · exact ((claim_C7 ([] : List Int)).2 rfl).2

/-- C9: `get_coefficient d` is `None` exactly when `d` exceeds the stored
degree, and otherwise is `Some` of the stored coefficient at exponent `d`
(total, no panic: the index is in bounds under the length invariant). -/
theorem claim_C9 {T : Type} [Zero T] (p : PolyV T) (hp : p.Inv) (d : Nat) :
    (p.get_coefficient d = none ↔ p.degree < d) ∧
    (d ≤ p.degree → p.get_coefficient d = some (p.coefficients.getD d 0)) := by
  unfold PolyV.Inv at hp
  constructor
  · constructor
    · intro hnone
      by_contra hgt
      unfold PolyV.get_coefficient at hnone
      rw [if_neg (by omega)] at hnone
      rw [List.getElem?_eq_getElem (by omega)] at hnone
      exact Option.noConfusion hnone
    · intro hgt
      unfold PolyV.get_coefficient
      rw [if_pos (by omega)]
  · intro hle
    unfold PolyV.get_coefficient
    rw [if_neg (by omega)]
    rw [List.getElem?_eq_getElem (by omega)]
    rw [List.getD_eq_getElem _ _ (by omega)]

theorem claim_C9_witness :
    (((PolyV.mk 1 [(3 : Int), 4]).get_coefficient 1 = none ↔
      (PolyV.mk 1 [(3 : Int), 4]).degree < 1) ∧
    (1 ≤ (PolyV.mk 1 [(3 : Int), 4]).degree →
      (PolyV.mk 1 [(3 : Int), 4]).get_coefficient 1 =
        some ((PolyV.mk 1 [(3 : Int), 4]).coefficients.getD 1 0))) ∧
    ((PolyV.mk 1 [(3 : Int), 4]).get_coefficient 2 = none ↔
      (PolyV.mk 1 [(3 : Int), 4]).degree < 2) :=
  ⟨claim_C9 (PolyV.mk 1 [(3 : Int), 4]) (by decide) 1,
    (claim_C9 (PolyV.mk 1 [(3 : Int), 4]) (by decide) 2).1⟩

/-- `get_coefficient` on a literal polynomial within the degree bound is a
plain vector lookup. -/
theorem PolyV.get_coefficient_mk_le {T : Type} (n i : Nat) (l : List T) (hi : i ≤ n) :
    PolyV.get_coefficient { degree := n, coefficients := l } i = l[i]? := by
  unfold PolyV.get_coefficient
  have hd : ({ degree := n, coefficients := l } : PolyV T).degree = n := rfl
  have hc : ({ degree := n, coefficients := l } : PolyV T).coefficients = l := rfl
  rw [hd, hc, if_neg (by omega)]

/-- C3: the product has degree `p.degree + q.degree`, its coefficient at
every exponent `k` within range is the convolution double sum of
`p[i] * q[j]` over all pairs with `i + j = k` (accumulated from the
identity), and the concrete example from the specification holds. -/
theorem claim_C3 {T : Type} [AddCommMonoid T] [Mul T] (p q : PolyV T) :
    (p.mul q).degree = p.degree + q.degree ∧
    (∀ k, k ≤ p.degree + q.degree →
      (p.mul q).get_coefficient k = some (convSum p q k)) ∧
    (PolyV.from_coefficients [(1 : Int), 4, 5]).mul
        (PolyV.from_coefficients [(2 : Int), 8, 10, 12, 14]) =
      { degree := 6, coefficients := [2, 16, 52, 92, 112, 116, 70] } := by
  refine ⟨PolyV.mul_degree p q, ?_, by decide⟩
  intro k hk
  rw [PolyV.mul_eq, PolyV.get_coefficient_mk_le _ _ _ hk]
  exact getElem?_map_range _ _ _ (by omega)

theorem claim_C3_witness :
    ((PolyV.mk 1 [(2 : Int), 3]).mul (PolyV.mk 1 [(4 : Int), 5])).degree =
      (PolyV.mk 1 [(2 : Int), 3]).degree + (PolyV.mk 1 [(4 : Int), 5]).degree ∧
    ((PolyV.mk 1 [(2 : Int), 3]).mul (PolyV.mk 1 [(4 : Int), 5])).get_coefficient 1 =
      some (convSum (PolyV.mk 1 [(2 : Int), 3]) (PolyV.mk 1 [(4 : Int), 5]) 1) :=
  ⟨(claim_C3 (PolyV.mk 1 [(2 : Int), 3]) (PolyV.mk 1 [(4 : Int), 5])).1,
    (claim_C3 (PolyV.mk 1 [(2 : Int), 3]) (PolyV.mk 1 [(4 : Int), 5])).2.1 1 (by decide)⟩

/-- C4: sum and difference have degree `max` of the operand degrees, and
at every exponent within range the coefficient is the `+` (resp. `-`)
combination of the operand coefficients, absent ones replaced by the
additive identity. -/
theorem claim_C4 {T : Type} [Zero T] [Add T] [Sub T] (p q : PolyV T) :
    (p.add q).degree = max p.degree q.degree ∧
    (p.sub q).degree = max p.degree q.degree ∧
    (∀ i, i ≤ max p.degree q.degree →
      (p.add q).get_coefficient i = some (coeffD p i + coeffD q i) ∧
      (p.sub q).get_coefficient i = some (coeffD p i - coeffD q i)) := by
  refine ⟨PolyV.add_degree p q, PolyV.sub_degree p q, ?_⟩
  intro i hi
  constructor
  · rw [PolyV.add_eq, PolyV.get_coefficient_mk_le _ _ _ hi]
    exact getElem?_map_range _ _ _ (by omega)
  · rw [PolyV.sub_eq, PolyV.get_coefficient_mk_le _ _ _ hi]
    exact getElem?_map_range _ _ _ (by omega)

theorem claim_C4_witness :
    ((PolyV.from_coefficients [(1 : Int), 4, 5]).add
        (PolyV.from_coefficients [(2 : Int), 8, 10, 12, 14])).degree =
      max (PolyV.from_coefficients [(1 : Int), 4, 5]).degree
        (PolyV.from_coefficients [(2 : Int), 8, 10, 12, 14]).degree ∧
    ((PolyV.from_coefficients [(1 : Int), 4, 5]).add
        (PolyV.from_coefficients [(2 : Int), 8, 10, 12, 14])).get_coefficient 3 =
      some (coeffD (PolyV.from_coefficients [(1 : Int), 4, 5]) 3 +
        coeffD (PolyV.from_coefficients [(2 : Int), 8, 10, 12, 14]) 3) ∧
    ((PolyV.from_coefficients [(1 : Int), 4, 5]).sub
        (PolyV.from_coefficients [(2 : Int), 8, 10, 12, 14])).get_coefficient 3 =
      some (coeffD (PolyV.from_coefficients [(1 : Int), 4, 5]) 3 -
        coeffD (PolyV.from_coefficients [(2 : Int), 8, 10, 12, 14]) 3) :=
  ⟨(claim_C4 (PolyV.from_coefficients [(1 : Int), 4, 5])
      (PolyV.from_coefficients [(2 : Int), 8, 10, 12, 14])).1,
    ((claim_C4 (PolyV.from_coefficients [(1 : Int), 4, 5])
      (PolyV.from_coefficients [(2 : Int), 8, 10, 12, 14])).2.2 3 (by decide)).1,
    ((claim_C4 (PolyV.from_coefficients [(1 : Int), 4, 5])
      (PolyV.from_coefficients [(2 : Int), 8, 10, 12, 14])).2.2 3 (by decide)).2⟩

/-- C8: multiplying by the canonical zero polynomial (on either side)
yields a polynomial of the other operand's degree with all coefficients
equal to the additive identity. -/
theorem claim_C8 {T : Type} [NonUnitalNonAssocSemiring T] (p : PolyV T) :
    (p.mul (PolyV.new T)).degree = p.degree ∧
    (p.mul (PolyV.new T)).coefficients = List.replicate (p.degree + 1) 0 ∧
    ((PolyV.new T).mul p).degree = p.degree ∧
    ((PolyV.new T).mul p).coefficients = List.replicate (p.degree + 1) 0 := by
  have hz : ∀ k, convSum p (PolyV.new T) k = 0 := by
    intro k
    apply Finset.sum_eq_zero
    intro i _
    apply Finset.sum_eq_zero
    intro j _
    rw [coeffD_new, mul_zero]
    split <;> rfl
  have hz2 : ∀ k, convSum (PolyV.new T) p k = 0 := by
    intro k
    apply Finset.sum_eq_zero
    intro i _
    apply Finset.sum_eq_zero
    intro j _
    rw [coeffD_new, zero_mul]
    split <;> rfl
  refine ⟨?_, ?_, ?_, ?_⟩
  · rw [PolyV.mul_degree, PolyV.new_degree]
    omega
  · rw [PolyV.mul_eq]
    simp only [PolyV.new_degree, Nat.add_zero]
    rw [show (fun k => convSum p (PolyV.new T) k) = fun _ => (0 : T) from funext hz]
    rw [List.map_const', List.length_range]
  · rw [PolyV.mul_degree, PolyV.new_degree, Nat.zero_add]
  · rw [PolyV.mul_eq]
    simp only [PolyV.new_degree, Nat.zero_add]
    rw [show (fun k => convSum (PolyV.new T) p k) = fun _ => (0 : T) from funext hz2]
    rw [List.map_const', List.length_range]

/-- C10: over a coefficient type with commutative, associative ring
operations, polynomial `add` and `mul` are commutative and associative. -/
theorem claim_C10 {T : Type} [CommSemiring T] (p q r : PolyV T) :
    p.add q = q.add p ∧ p.mul q = q.mul p ∧
    (p.add q).add r = p.add (q.add r) ∧
    (p.mul q).mul r = p.mul (q.mul r) := by
  refine ⟨?_, ?_, ?_, ?_⟩
  · rw [PolyV.add_eq p q, PolyV.add_eq q p, Nat.max_comm q.degree p.degree]
    simp only [PolyV.mk.injEq, true_and]
    apply List.map_congr_left
    intro i _
    exact add_comm _ _
  · rw [PolyV.mul_eq p q, PolyV.mul_eq q p, Nat.add_comm q.degree p.degree]
    simp only [PolyV.mk.injEq, true_and]
    apply List.map_congr_left
    intro k _
    have h1 : convSum p q k =
        ∑ x ∈ Finset.antidiagonal k,
          (fun y => coeffD q y.1 * coeffD p y.2) x.swap := by
      rw [convSum_antidiagonal]
      exact Finset.sum_congr rfl (fun x _ => mul_comm _ _)
    rw [h1, convSum_antidiagonal q p]
    exact Finset.Nat.sum_antidiagonal_swap
      (f := fun y => coeffD q y.1 * coeffD p y.2)
  · rw [PolyV.add_eq (p.add q) r, PolyV.add_eq p (q.add r),
      PolyV.add_degree p q, PolyV.add_degree q r, Nat.max_assoc]
    simp only [PolyV.mk.injEq, true_and]
    apply List.map_congr_left
    intro i _
    rw [coeffD_add, coeffD_add, add_assoc]
  · rw [PolyV.mul_eq (p.mul q) r, PolyV.mul_eq p (q.mul r),
      PolyV.mul_degree p q, PolyV.mul_degree q r, Nat.add_assoc]
    simp only [PolyV.mk.injEq, true_and]
    apply List.map_congr_left
    intro k _
    rw [convSum_toM, convSum_toM, toMathlibPoly_mul, toMathlibPoly_mul, mul_assoc]

/-! ## The real-coefficient renderer refines the specification text -/

/-- The loop body skips a zero coefficient. -/
theorem fmtStep_zero (acc : String × Bool) (d : Nat) (c : Int) (h : c = 0) :
    fmtStep toString acc (d, c) = acc := by
  unfold fmtStep
  rw [if_neg (by simpa using h)]

/-- After the first emitted term, the loop body appends exactly the
spec-described later-term text. -/
theorem fmtStep_nonzero_false (s : String) (d : Nat) (c : Int) (h : c ≠ 0) :
    fmtStep toString (s, false) (d, c) = (s ++ specLaterTerm (d, c), false) := by
  unfold fmtStep specLaterTerm specTermBody
  rw [if_pos (by simpa using h)]
  by_cases hneg : c < 0 <;>
    simp [hneg, String.append_assoc]

/-- On the first emitted term, the loop body produces exactly the
spec-described first-term text. -/
theorem fmtStep_nonzero_true (d : Nat) (c : Int) (h : c ≠ 0) :
    fmtStep toString ("", true) (d, c) = (specFirstTerm (d, c), false) := by
  unfold fmtStep specFirstTerm specTermBody
  rw [if_pos (by simpa using h)]
  by_cases hneg : c < 0 <;>
    simp [hneg, String.append_assoc, String.empty_append]

/-- Once the first term has been emitted, the rest of the fold appends the
later-term renderings of the surviving pairs. -/
theorem foldl_fmtStep_false (l : List (Nat × Int)) :
    ∀ s, l.foldl (fmtStep toString) (s, false) =
      (s ++ strJoin ((l.filter (fun dc => decide (dc.2 ≠ 0))).map specLaterTerm),
        false) := by
  induction l with
  | nil =>
    intro s
    simp [strJoin, String.append_empty]
  | cons hd tl ih =>
    intro s
    rcases hd with ⟨d, c⟩
    by_cases hc : c = 0
    · rw [List.foldl_cons, fmtStep_zero _ _ _ hc, ih s]
      simp [List.filter_cons, hc]
    · rw [List.foldl_cons, fmtStep_nonzero_false _ _ _ hc, ih]
      simp [List.filter_cons, hc, strJoin, String.append_assoc]

/-- The whole fold, from the initial `("", true)` state, produces the
spec-described rendering of the surviving pairs. -/
theorem foldl_fmtStep_true (l : List (Nat × Int)) :
    (l.foldl (fmtStep toString) ("", true)).1 =
      (match l.filter (fun dc => decide (dc.2 ≠ 0)) with
        | [] => ""
        | t :: rest => specFirstTerm t ++ strJoin (rest.map specLaterTerm)) := by
  induction l with
  | nil => rfl
  | cons hd tl ih =>
    rcases hd with ⟨d, c⟩
    by_cases hc : c = 0
    · rw [List.foldl_cons, fmtStep_zero _ _ _ hc]
      simpa [List.filter_cons, hc] using ih
    · rw [List.foldl_cons, fmtStep_nonzero_true _ _ hc, foldl_fmtStep_false]
      simp [List.filter_cons, hc]

/-- C5: the real-coefficient renderer iterates exponents from highest to
lowest, skips zero coefficients, renders the first emitted term with no
leading `"+ "` (but `"- "` and the negated magnitude when negative),
precedes later terms by a space and their sign token, elides the power for
exponents 0 and 1, renders the all-zero polynomial as the empty string,
and renders `from_coefficients([0,-3,2])` as `"2x^2 - 3x"`. -/
theorem claim_C5 (p : PolyV Int) :
    PolyV.fmtDisplay toString p = specDisplay p ∧
    ((∀ c ∈ p.coefficients, c = 0) → PolyV.fmtDisplay toString p = "") ∧
    PolyV.fmtDisplay toString (PolyV.from_coefficients [(0 : Int), -3, 2]) =
      "2x^2 - 3x" := by
  refine ⟨?_, ?_, by decide⟩
  · unfold PolyV.fmtDisplay specDisplay
    exact foldl_fmtStep_true _
  · intro hz
    unfold PolyV.fmtDisplay
    rw [foldl_fmtStep_true]
    have hnil : p.coefficients.enum.reverse.filter (fun dc => decide (dc.2 ≠ 0)) = [] := by
      rw [List.filter_eq_nil_iff]
      intro a ha
      have h2 : a.2 ∈ p.coefficients := by
        rw [List.mem_reverse] at ha
        have h3 := List.mem_map_of_mem Prod.snd ha
        rw [List.enum_map_snd] at h3
        exact h3
      simp [hz a.2 h2]
    rw [hnil]

theorem claim_C5_witness :
    (PolyV.fmtDisplay toString (PolyV.from_coefficients [(0 : Int), -3, 2]) =
      specDisplay (PolyV.from_coefficients [(0 : Int), -3, 2])) ∧
    ((∀ c ∈ (PolyV.mk 1 [(0 : Int), 0]).coefficients, c = 0) →
      PolyV.fmtDisplay toString (PolyV.mk 1 [(0 : Int), 0]) = "") ∧
    PolyV.fmtDisplay toString (PolyV.mk 1 [(0 : Int), 0]) = "" :=
  ⟨(claim_C5 (PolyV.from_coefficients [(0 : Int), -3, 2])).1,
    (claim_C5 (PolyV.mk 1 [(0 : Int), 0])).2.1,
    (claim_C5 (PolyV.mk 1 [(0 : Int), 0])).2.1 (by decide)⟩

/-! ## The complex-coefficient renderer refines the specification text -/

/-- On `Int`, the embedded `Signed::abs` is the absolute value. -/
theorem absV_int (x : Int) : absV x = |x| := by
  unfold absV
  by_cases h : x < 0
  · rw [if_pos h, abs_of_neg h]
  · rw [if_neg h, abs_of_nonneg (by omega)]

/-- The complex loop body skips a term of zero squared norm. -/
theorem fmtComplexStep_zero (fs : String) (d : Nat) (z : NumComplexV Int)
    (h : z.norm_sqr = 0) : fmtComplexStep toString fs (d, z) = fs := by
  unfold fmtComplexStep
  rw [if_neg (by simpa using h)]

/-- The complex loop body appends exactly the spec-described term text for
a term of non-zero squared norm. -/
theorem fmtComplexStep_nonzero (fs : String) (d : Nat) (z : NumComplexV Int)
    (h : z.norm_sqr ≠ 0) :
    fmtComplexStep toString fs (d, z) = fs ++ specComplexTerm (d, z) := by
  unfold fmtComplexStep specComplexTerm
  rw [if_pos (by simpa using h)]
  by_cases him : z.im = 0
  · simp [him, String.append_assoc, String.append_empty]
  · by_cases hpos : 0 < z.im
    · have hnn : ¬ (z.im < 0) := by omega
      by_cases hre : z.re = 0
      · simp [him, hpos, hre, hnn, absV_int, String.append_assoc,
          String.empty_append]
      · simp [him, hpos, hre, hnn, absV_int, String.append_assoc]
    · have hneg : z.im < 0 := by omega
      by_cases hre : z.re = 0
      · simp [him, hpos, hre, hneg, absV_int, String.append_assoc, String.empty_append]
      · simp [him, hpos, hre, hneg, absV_int, String.append_assoc]

/-- The complex fold appends the spec-described renderings of exactly the
terms of non-zero squared norm. -/
theorem foldl_fmtComplexStep (l : List (Nat × NumComplexV Int)) :
    ∀ fs, l.foldl (fmtComplexStep toString) fs =
      fs ++ strJoin ((l.filter
        (fun dc => decide (dc.2.norm_sqr ≠ 0))).map specComplexTerm) := by
  induction l with
  | nil =>
    intro fs
    simp [strJoin, String.append_empty]
  | cons hd tl ih =>
    intro fs
    rcases hd with ⟨d, z⟩
    by_cases hz : z.norm_sqr = 0
    · rw [List.foldl_cons, fmtComplexStep_zero _ _ _ hz, ih fs]
      simp [List.filter_cons, hz]
    · rw [List.foldl_cons, fmtComplexStep_nonzero _ _ _ hz, ih]
      simp [List.filter_cons, hz, strJoin, String.append_assoc]

/-- C6: the complex renderer iterates exponents from highest to lowest,
skips exactly the terms of zero squared norm (equivalently: both parts
zero), and renders each surviving term as the spec describes, with a
leading `"+ ("` on every term including the first and a trailing space. -/
theorem claim_C6 (p : PolyV (NumComplexV Int)) :
    PolyV.fmtComplexDisplay toString p = specComplexDisplay p ∧
    (∀ z : NumComplexV Int, z.norm_sqr = 0 ↔ z.re = 0 ∧ z.im = 0) := by
  constructor
  · unfold PolyV.fmtComplexDisplay specComplexDisplay
    rw [foldl_fmtComplexStep]
    exact String.empty_append _
  · intro z
    unfold NumComplexV.norm_sqr
    constructor
    · intro h0
      constructor
      · have h1 : z.re * z.re = 0 := by
          nlinarith [mul_self_nonneg z.re, mul_self_nonneg z.im]
        exact mul_self_eq_zero.mp h1
      · have h1 : z.im * z.im = 0 := by
          nlinarith [mul_self_nonneg z.re, mul_self_nonneg z.im]
        exact mul_self_eq_zero.mp h1
    · rintro ⟨h1, h2⟩
      rw [h1, h2]
      ring
